import Mathlib

/-!
# Verification of the pmap parser (src/src/utils/pmap-parser.ts)

A shallow embedding of the two exported functions of the repository,
`parsePmap` and `processInlineMarkup`, over `List Char`, together with
proofs of the specification's claims about them.

The embedding follows the TypeScript source line by line:

* `parsePmap` splits the input on the newline character, then scans the
  lines with two pieces of state (the in-progress list and the metadata
  flag), classifying each trimmed line by the source's `if` chain.
* `processInlineMarkup` performs the two global regex replacements of the
  source; the regexes are embedded as explicit backtracking matchers with
  the engine's greedy, leftmost-first search order.
-/

namespace Pmap

/-- JavaScript whitespace, as `String.prototype.trim` removes it: space,
tab, line terminators, and the Unicode space separators. -/
def isWS (c : Char) : Bool :=
  c = ' ' || c = '\t' || c = '\n' || c = '\u000B' || c = '\u000C' ||
  c = '\r' || c = '\u00A0' || c = '\u1680' ||
  ('\u2000' ≤ c && c ≤ '\u200A') ||
  c = '\u2028' || c = '\u2029' || c = '\u202F' || c = '\u205F' ||
  c = '\u3000' || c = '\uFEFF'

/-- Drop leading whitespace. -/
def leftTrim (l : List Char) : List Char := l.dropWhile isWS

/-- Drop trailing whitespace. -/
def rightTrim (l : List Char) : List Char := (l.reverse.dropWhile isWS).reverse

/-- JavaScript `line.trim()`. -/
def trimChars (l : List Char) : List Char := rightTrim (leftTrim l)

/-- JavaScript `content.split('\n')`: the empty string splits to one empty
line, a trailing newline yields a final empty line. -/
def splitLines : List Char → List (List Char)
  | [] => [[]]
  | c :: cs =>
    match splitLines cs with
    | [] => [[]]
    | l :: ls => if c = '\n' then [] :: l :: ls else (c :: l) :: ls

/-- Join lines with the newline character (the left inverse of
`splitLines` on newline-free lines); used to build test documents. -/
def joinLines : List (List Char) → List Char
  | [] => []
  | [l] => l
  | l :: l2 :: ls => l ++ '\n' :: joinLines (l2 :: ls)

/-- The `PmapSection` interface: a tagged variant over the five section
kinds, each with the fields the parser populates for it.  The `link`
variant is declared in the source's interface but never produced. -/
inductive PmapSection where
  | text (content : List Char)
  | heading (content : List Char) (level : Nat)
  | list (items : List (List Char))
  | image (url : List Char) (alt : List Char)
  | link (content : List Char) (url : List Char)
deriving DecidableEq, Repr

/-- The `PmapData` interface: optional title and description plus the
ordered section list. -/
structure PmapData where
  title : Option (List Char)
  description : Option (List Char)
  sections : List PmapSection
deriving DecidableEq, Repr

/-- The loop state of `parsePmap`: the result object being built plus the
two transient variables `currentList` and `inMetadata`. -/
structure ParseState where
  title : Option (List Char)
  description : Option (List Char)
  sections : List PmapSection
  currentList : Option (List (List Char))
  inMetadata : Bool
deriving DecidableEq, Repr

/-- The source's repeated flush block: push the in-progress list as a
`list` section (content unused) and clear it; a no-op when none exists. -/
def flushList (st : ParseState) : ParseState :=
  match st.currentList with
  | some items =>
    { st with sections := st.sections ++ [.list items], currentList := none }
  | none => st

/-- Greedy backtracking over a quantifier's candidate lengths: try
`f n`, `f (n-1)`, ..., `f 0` and keep the first success. -/
def firstSome {α : Type} (f : Nat → Option α) : Nat → Option α
  | 0 => f 0
  | n + 1 =>
    match f (n + 1) with
    | some r => some r
    | none => firstSome f n

/-- The characters the regex metacharacter `.` matches (everything but
line terminators). -/
def isDot (c : Char) : Bool :=
  !(c = '\n' || c = '\r' || c = '\u2028' || c = '\u2029')

/-- One attempt of the image regex of the source,
`\[image:\s*([^\|]+)\s*(?:\|\s*(.+))?\]`, at a fixed start position,
in the engine's backtracking order (each greedy quantifier tries its
longest extent first, the optional group is tried present first).
Returns the two capture groups on success: the URL part, and the alt
part when the `|` alternative matched. -/
def imageTryAt (l : List Char) : Option (List Char × Option (List Char)) :=
  if "[image:".toList.isPrefixOf l then
    let r0 := l.drop 7
    firstSome (fun w =>
      let r1 := r0.drop w
      firstSome (fun j =>
        if j = 0 then none else
        let g1 := r1.take j
        let r2 := r1.drop j
        firstSome (fun w2 =>
          let r3 := r2.drop w2
          let withAlt : Option (List Char × Option (List Char)) :=
            match r3 with
            | '|' :: r4 =>
              firstSome (fun w3 =>
                let r5 := r4.drop w3
                firstSome (fun d =>
                  if d = 0 then none else
                  match r5.drop d with
                  | ']' :: _ => some (g1, some (r5.take d))
                  | _ => none) (r5.takeWhile isDot).length) (r4.takeWhile isWS).length
            | _ => none
          match withAlt with
          | some r => some r
          | none =>
            match r3 with
            | ']' :: _ => some (g1, none)
            | _ => none) (r2.takeWhile isWS).length) (r1.takeWhile (fun c => !(c = '|'))).length) (r0.takeWhile isWS).length
  else none

/-- JavaScript `trimmed.match(imageRegex)`: try the pattern at each start
position from the left and return the first match's capture groups. -/
def jsMatchImage : List Char → Option (List Char × Option (List Char))
  | [] => imageTryAt []
  | c :: rest =>
    match imageTryAt (c :: rest) with
    | some r => some r
    | none => jsMatchImage rest

/-- One iteration of `parsePmap`'s line loop: classify `line` (at index
`i`) by the source's `if` chain and update the state. -/
def processLine (st : ParseState) (i : Nat) (line : List Char) : ParseState :=
  let trimmed := trimChars line
  if trimmed = [] then
    flushList st
  else if trimmed = "---".toList ∧ i = 0 then
    { st with inMetadata := true }
  else if trimmed = "---".toList ∧ st.inMetadata = true then
    { st with inMetadata := false }
  else if st.inMetadata = true then
    if "title:".toList.isPrefixOf trimmed then
      { st with title := some (trimChars (trimmed.drop 6)) }
    else if "description:".toList.isPrefixOf trimmed then
      { st with description := some (trimChars (trimmed.drop 12)) }
    else st
  else if "#".toList.isPrefixOf trimmed then
    let st1 := flushList st
    let levelRaw := (trimmed.takeWhile (fun c => c = '#')).length
    let level := if levelRaw = 0 then 1 else levelRaw
    { st1 with sections :=
        st1.sections ++ [.heading (trimChars (trimmed.drop level)) level] }
  else if "[image:".toList.isPrefixOf trimmed then
    let st1 := flushList st
    match jsMatchImage trimmed with
    | some (u, a) =>
      { st1 with sections :=
          st1.sections ++ [.image (trimChars u) ((a.map trimChars).getD [])] }
    | none => st1
  else if "-".toList.isPrefixOf trimmed then
    { st with currentList := some (st.currentList.getD [] ++ [trimChars (trimmed.drop 1)]) }
  else
    let st1 := flushList st
    { st1 with sections := st1.sections ++ [.text trimmed] }

/-- The source's `for` loop over the split lines, carrying the index. -/
def parseLoop : ParseState → Nat → List (List Char) → ParseState
  | st, _, [] => st
  | st, i, l :: rest => parseLoop (processLine st i l) (i + 1) rest

/-- The fresh state each `parsePmap` call starts from. -/
def initState : ParseState := ⟨none, none, [], none, false⟩

/-- `parsePmap`: split on newlines, scan the lines, flush a still-pending
list, and return the document. -/
def parsePmap (content : List Char) : PmapData :=
  let stF := flushList (parseLoop initState 0 (splitLines content))
  ⟨stF.title, stF.description, stF.sections⟩

/-- One attempt of the bold regex `\*\*([^\*]+)\*\*` at a fixed start
position; on success returns the capture group and the rest of the input
after the match. -/
def boldTryAt (l : List Char) : Option (List Char × List Char) :=
  if "**".toList.isPrefixOf l then
    firstSome (fun j =>
      if j = 0 then none else
      if "**".toList.isPrefixOf ((l.drop 2).drop j) then
        some ((l.drop 2).take j, ((l.drop 2).drop j).drop 2)
      else none) ((l.drop 2).takeWhile (fun c => !(c = '*'))).length
  else none

/-- One attempt of the link regex `\[([^\]]+)\]\(([^\)]+)\)` at a fixed
start position; on success returns the two capture groups (label, URL)
and the rest of the input after the match. -/
def linkTryAt (l : List Char) : Option (List Char × List Char × List Char) :=
  if "[".toList.isPrefixOf l then
    firstSome (fun j =>
      if j = 0 then none else
      if "](".toList.isPrefixOf ((l.drop 1).drop j) then
        firstSome (fun k =>
          if k = 0 then none else
          if ")".toList.isPrefixOf ((((l.drop 1).drop j).drop 2).drop k) then
            some ((l.drop 1).take j, (((l.drop 1).drop j).drop 2).take k,
              ((((l.drop 1).drop j).drop 2).drop k).drop 1)
          else none) ((((l.drop 1).drop j).drop 2).takeWhile (fun c => !(c = ')'))).length
      else none) ((l.drop 1).takeWhile (fun c => !(c = ']'))).length
  else none

theorem firstSome_eq_some {α : Type} {f : Nat → Option α} {a : α} :
    ∀ {n : Nat}, firstSome f n = some a → ∃ j, j ≤ n ∧ f j = some a := by
  intro n
  induction n with
  | zero => intro h; exact ⟨0, Nat.le_refl 0, h⟩
  | succ m ih =>
    intro h
    rw [firstSome] at h
    cases hf : f (m + 1) with
    | some r => rw [hf] at h; exact ⟨m + 1, Nat.le_refl _, hf ▸ h⟩
    | none =>
      rw [hf] at h
      obtain ⟨j, hj, hfj⟩ := ih h
      exact ⟨j, Nat.le_succ_of_le hj, hfj⟩

theorem boldTryAt_length {l g r2 : List Char}
    (h : boldTryAt l = some (g, r2)) : r2.length < l.length := by
  rw [boldTryAt] at h
  split at h
  case isTrue hpre =>
    have hlen : 2 ≤ l.length := by
      simpa using (List.isPrefixOf_iff_prefix.mp hpre).length_le
    obtain ⟨j, _, hfj⟩ := firstSome_eq_some h
    split at hfj
    · exact absurd hfj (by simp)
    · split at hfj
      · simp only [Option.some.injEq, Prod.mk.injEq] at hfj
        have hr : r2 = ((l.drop 2).drop j).drop 2 := hfj.2.symm
        subst hr
        simp only [List.length_drop]
        omega
      · exact absurd hfj (by simp)
  case isFalse => exact absurd h (by simp)

theorem linkTryAt_length {l g1 g2 r3 : List Char}
    (h : linkTryAt l = some (g1, g2, r3)) : r3.length < l.length := by
  rw [linkTryAt] at h
  split at h
  case isTrue hpre =>
    have hlen : 1 ≤ l.length := by
      simpa using (List.isPrefixOf_iff_prefix.mp hpre).length_le
    obtain ⟨j, _, hfj⟩ := firstSome_eq_some h
    split at hfj
    · exact absurd hfj (by simp)
    · split at hfj
      · obtain ⟨k, _, hgk⟩ := firstSome_eq_some hfj
        split at hgk
        · exact absurd hgk (by simp)
        · split at hgk
          · simp only [Option.some.injEq, Prod.mk.injEq] at hgk
            have hr : r3 = ((((l.drop 1).drop j).drop 2).drop k).drop 1 :=
              hgk.2.2.symm
            subst hr
            simp only [List.length_drop]
            omega
          · exact absurd hgk (by simp)
      · exact absurd hfj (by simp)
  case isFalse => exact absurd h (by simp)

/-- The first `replace` of `processInlineMarkup`: scan left to right,
rewriting each bold match to `<strong>...</strong>` and resuming after
it, copying unmatched characters. -/
def replaceBold : List Char → List Char
  | [] => []
  | c :: rest =>
    match h : boldTryAt (c :: rest) with
    | some (g, r2) =>
      "<strong>".toList ++ g ++ "</strong>".toList ++ replaceBold r2
    | none => c :: replaceBold rest
termination_by l => l.length
decreasing_by
  · exact boldTryAt_length h
  · simp

/-- The second `replace` of `processInlineMarkup`: scan left to right,
rewriting each link match to its anchor markup and resuming after it. -/
def replaceLinks : List Char → List Char
  | [] => []
  | c :: rest =>
    match h : linkTryAt (c :: rest) with
    | some (g1, g2, r3) =>
      "<a href=\"".toList ++ g2 ++ "\" target=\"_blank\">".toList ++ g1 ++
        "</a>".toList ++ replaceLinks r3
    | none => c :: replaceLinks rest
termination_by l => l.length
decreasing_by
  · exact linkTryAt_length h
  · simp

/-- `processInlineMarkup`: the bold replacement, then the link
replacement. -/
def processInlineMarkup (text : List Char) : List Char :=
  replaceLinks (replaceBold text)

/-- A bold match attempt fails at every position of the string: the string
contains no `**...**` span. -/
def boldFree : List Char → Bool
  | [] => true
  | c :: rest => (boldTryAt (c :: rest)).isNone && boldFree rest

/-- A link match attempt fails at every position of the string: the string
contains no `[...](...)` span. -/
def linkFree : List Char → Bool
  | [] => true
  | c :: rest => (linkTryAt (c :: rest)).isNone && linkFree rest

/-- A `- item` source line built from an item string; used to state the
list-run property over documents constructed from arbitrary items. -/
def itemLine (it : List Char) : List Char := '-' :: ' ' :: it

/-- A line that the scan classifies as a paragraph: non-blank, trim-fixed
and newline-free (so it survives splitting and trimming unchanged), and
not starting with one of the marker characters `#`, `-`, `[`. -/
def goodPara (p : List Char) : Prop :=
  trimChars p = p ∧ p ≠ [] ∧ '\n' ∉ p ∧
  p.head? ≠ some '#' ∧ p.head? ≠ some '-' ∧ p.head? ≠ some '['

instance (p : List Char) : Decidable (goodPara p) := by
  unfold goodPara
  infer_instance

/-! ### Support lemmas about trimming -/

theorem dropWhile_length_le (p : Char → Bool) (l : List Char) :
    (l.dropWhile p).length ≤ l.length :=
  (List.dropWhile_suffix p).sublist.length_le

theorem leftTrim_length_le (l : List Char) : (leftTrim l).length ≤ l.length :=
  dropWhile_length_le isWS l

theorem rightTrim_length_le (l : List Char) : (rightTrim l).length ≤ l.length := by
  unfold rightTrim
  simpa using dropWhile_length_le isWS l.reverse

theorem dropWhile_eq_self_of_length {p : Char → Bool} {l : List Char}
    (h : (l.dropWhile p).length = l.length) : l.dropWhile p = l :=
  (List.dropWhile_suffix p).eq_of_length h

/-- A trim-fixed string is already left-trimmed. -/
theorem trim_fixed_left {l : List Char} (h : trimChars l = l) : leftTrim l = l := by
  have h1 := congrArg List.length h
  unfold trimChars at h1
  have h2 := rightTrim_length_le (leftTrim l)
  have h3 := leftTrim_length_le l
  have h4 : (leftTrim l).length = l.length := by omega
  unfold leftTrim at h4 ⊢
  exact dropWhile_eq_self_of_length h4

/-- A trim-fixed string is already right-trimmed. -/
theorem trim_fixed_right {l : List Char} (h : trimChars l = l) : rightTrim l = l := by
  have hl := trim_fixed_left h
  unfold trimChars at h
  rw [hl] at h
  exact h

theorem not_ws_of_leftTrim_cons {c : Char} {l : List Char}
    (h : leftTrim (c :: l) = c :: l) : isWS c = false := by
  cases hw : isWS c with
  | false => rfl
  | true =>
    unfold leftTrim at h
    rw [List.dropWhile_cons, if_pos hw] at h
    have h1 := congrArg List.length h
    have h2 := dropWhile_length_le isWS l
    simp only [List.length_cons] at h1
    omega

theorem leftTrim_cons_of_not_ws {c : Char} (l : List Char) (hc : isWS c = false) :
    leftTrim (c :: l) = c :: l := by
  unfold leftTrim
  rw [List.dropWhile_cons, if_neg (by simp [hc])]

/-- Appending a right-trimmed, non-empty string on the right leaves the
whole right-trimmed. -/
theorem rightTrim_append_right {m : List Char} (x : List Char)
    (hm : rightTrim m = m) (hne : m ≠ []) : rightTrim (x ++ m) = x ++ m := by
  have h1 : m.reverse.dropWhile isWS = m.reverse := by
    have h2 := congrArg List.reverse hm
    unfold rightTrim at h2
    simpa using h2
  obtain ⟨c, t, hct⟩ : ∃ c t, m.reverse = c :: t := by
    cases hr : m.reverse with
    | nil => exact absurd (by simpa using congrArg List.reverse hr) hne
    | cons c t => exact ⟨c, t, rfl⟩
  have hc : isWS c = false := by
    apply not_ws_of_leftTrim_cons (l := t)
    rw [leftTrim, ← hct]
    exact h1
  have hm2 : m = t.reverse ++ [c] := by
    have h3 := congrArg List.reverse hct
    simpa using h3
  unfold rightTrim
  rw [List.reverse_append, hct]
  rw [show (c :: t) ++ x.reverse = c :: (t ++ x.reverse) from rfl]
  rw [List.dropWhile_cons, if_neg (by simp [hc])]
  rw [hm2]
  simp

/-- Appending a trim-fixed string to a non-empty trim-fixed string is
trim-fixed. -/
theorem trimChars_append {a t : List Char} (ha : trimChars a = a) (hane : a ≠ [])
    (ht : trimChars t = t) : trimChars (a ++ t) = a ++ t := by
  obtain ⟨c, a2, rfl⟩ : ∃ c a2, a = c :: a2 := by
    cases a with
    | nil => exact absurd rfl hane
    | cons c a2 => exact ⟨c, a2, rfl⟩
  have hc := not_ws_of_leftTrim_cons (trim_fixed_left ha)
  unfold trimChars
  rw [show (c :: a2) ++ t = c :: (a2 ++ t) from rfl, leftTrim_cons_of_not_ws _ hc]
  by_cases hte : t = []
  · subst hte
    simpa using trim_fixed_right ha
  · exact rightTrim_append_right (c :: a2) (trim_fixed_right ht) hte

/-! ### Support lemmas about line splitting -/

theorem splitLines_ne_nil : ∀ (l : List Char), splitLines l ≠ []
  | [] => by simp [splitLines]
  | c :: cs => by
    rw [splitLines]
    cases h : splitLines cs with
    | nil => simp
    | cons a b => by_cases hc : c = '\n' <;> simp [hc]

theorem splitLines_no_nl {l : List Char} (h : '\n' ∉ l) : splitLines l = [l] := by
  induction l with
  | nil => rfl
  | cons c cs ih =>
    have hc : ¬ (c = '\n') := fun e => h (e ▸ List.mem_cons_self c cs)
    have hcs : '\n' ∉ cs := fun m => h (List.mem_cons_of_mem c m)
    rw [splitLines, ih hcs]
    simp [hc]

theorem splitLines_append {l : List Char} (r : List Char) (h : '\n' ∉ l) :
    splitLines (l ++ '\n' :: r) = l :: splitLines r := by
  induction l with
  | nil =>
    simp only [List.nil_append]
    rw [splitLines]
    cases hs : splitLines r with
    | nil => exact absurd hs (splitLines_ne_nil r)
    | cons a b => simp
  | cons c cs ih =>
    have hc : ¬ (c = '\n') := fun e => h (e ▸ List.mem_cons_self c cs)
    have hcs : '\n' ∉ cs := fun m => h (List.mem_cons_of_mem c m)
    simp only [List.cons_append]
    rw [splitLines, ih hcs]
    simp [hc]

theorem splitLines_joinLines : ∀ {lines : List (List Char)}, lines ≠ [] →
    (∀ l ∈ lines, '\n' ∉ l) → splitLines (joinLines lines) = lines := by
  intro lines
  induction lines with
  | nil => intro h _; exact absurd rfl h
  | cons l rest ih =>
    intro _ hnl
    cases rest with
    | nil => rw [joinLines]; exact splitLines_no_nl (hnl l (by simp))
    | cons l2 ls =>
      rw [joinLines, splitLines_append _ (hnl l (by simp))]
      rw [ih (by simp) (fun x hx => hnl x (List.mem_cons_of_mem l hx))]

/-! ### Small facts about prefixes -/

theorem exists_cons_of_isPrefixOf {a : Char} {p l : List Char}
    (h : (a :: p).isPrefixOf l = true) : ∃ t, l = a :: t := by
  rw [List.isPrefixOf_iff_prefix] at h
  obtain ⟨t, ht⟩ := h
  exact ⟨p ++ t, ht.symm⟩

theorem cons_ne_dashes {c : Char} {t : List Char} (h : ¬ c = '-') :
    c :: t ≠ "---".toList := by
  intro he
  rw [show "---".toList = '-' :: '-' :: ['-'] from rfl] at he
  injection he with h1 _
  exact h h1

theorem isPrefixOf_cons_ne {a b : Char} (p bs : List Char) (h : ¬ a = b) :
    (a :: p).isPrefixOf (b :: bs) = false := by
  simp [List.isPrefixOf_cons₂, h]

/-! ### Classification lemmas: one per branch of the line loop -/

theorem processLine_blank {line : List Char} (st : ParseState) (i : Nat)
    (h : trimChars line = []) : processLine st i line = flushList st := by
  simp [processLine, h]

theorem processLine_open {line : List Char} (st : ParseState)
    (h : trimChars line = "---".toList) :
    processLine st 0 line = { st with inMetadata := true } := by
  simp only [processLine]
  rw [h]
  rw [if_neg (by decide), if_pos ⟨rfl, trivial⟩]

theorem processLine_close {line : List Char} (st : ParseState) (i : Nat)
    (h : trimChars line = "---".toList) (hi : i ≠ 0)
    (hm : st.inMetadata = true) :
    processLine st i line = { st with inMetadata := false } := by
  simp only [processLine]
  rw [h]
  rw [if_neg (by decide), if_neg (fun hx => hi hx.2), if_pos ⟨rfl, hm⟩]

theorem processLine_inMeta {line : List Char} (st : ParseState) (i : Nat)
    (hm : st.inMetadata = true) (hne : trimChars line ≠ [])
    (hd : trimChars line ≠ "---".toList) :
    processLine st i line =
      if "title:".toList.isPrefixOf (trimChars line) = true then
        { st with title := some (trimChars ((trimChars line).drop 6)) }
      else if "description:".toList.isPrefixOf (trimChars line) = true then
        { st with description := some (trimChars ((trimChars line).drop 12)) }
      else st := by
  simp only [processLine]
  rw [if_neg hne, if_neg (fun hx => hd hx.1), if_neg (fun hx => hd hx.1),
    if_pos hm]

theorem processLine_heading {line : List Char} (st : ParseState) (i : Nat)
    (hm : st.inMetadata = false)
    (hh : "#".toList.isPrefixOf (trimChars line) = true) :
    processLine st i line =
      { flushList st with sections := (flushList st).sections ++
          [.heading
            (trimChars ((trimChars line).drop
              ((trimChars line).takeWhile (fun c => c = '#')).length))
            ((trimChars line).takeWhile (fun c => c = '#')).length] } := by
  obtain ⟨t, htc⟩ := exists_cons_of_isPrefixOf hh
  have hne : trimChars line ≠ [] := by rw [htc]; simp
  have hd : trimChars line ≠ "---".toList := by
    rw [htc]; exact cons_ne_dashes (by decide)
  have hlev : ((trimChars line).takeWhile (fun c => c = '#')).length ≠ 0 := by
    rw [htc, List.takeWhile_cons]
    simp
  simp only [processLine]
  rw [if_neg hne, if_neg (fun hx => hd hx.1), if_neg (fun hx => hd hx.1),
    if_neg (by simp [hm]), if_pos hh, if_neg hlev]

theorem processLine_image_some {line u : List Char} {a : Option (List Char)}
    (st : ParseState) (i : Nat) (hm : st.inMetadata = false)
    (hp : "[image:".toList.isPrefixOf (trimChars line) = true)
    (hj : jsMatchImage (trimChars line) = some (u, a)) :
    processLine st i line =
      { flushList st with sections := (flushList st).sections ++
          [.image (trimChars u) ((a.map trimChars).getD [])] } := by
  obtain ⟨t, htc⟩ := exists_cons_of_isPrefixOf hp
  have hne : trimChars line ≠ [] := by rw [htc]; simp
  have hd : trimChars line ≠ "---".toList := by
    rw [htc]; exact cons_ne_dashes (by decide)
  have hh : "#".toList.isPrefixOf (trimChars line) = false := by
    rw [htc]; exact isPrefixOf_cons_ne _ _ (by decide)
  simp only [processLine]
  rw [if_neg hne, if_neg (fun hx => hd hx.1), if_neg (fun hx => hd hx.1),
    if_neg (by simp [hm]), if_neg (by rw [hh]; decide), if_pos hp, hj]

theorem processLine_image_none {line : List Char}
    (st : ParseState) (i : Nat) (hm : st.inMetadata = false)
    (hp : "[image:".toList.isPrefixOf (trimChars line) = true)
    (hj : jsMatchImage (trimChars line) = none) :
    processLine st i line = flushList st := by
  obtain ⟨t, htc⟩ := exists_cons_of_isPrefixOf hp
  have hne : trimChars line ≠ [] := by rw [htc]; simp
  have hd : trimChars line ≠ "---".toList := by
    rw [htc]; exact cons_ne_dashes (by decide)
  have hh : "#".toList.isPrefixOf (trimChars line) = false := by
    rw [htc]; exact isPrefixOf_cons_ne _ _ (by decide)
  simp only [processLine]
  rw [if_neg hne, if_neg (fun hx => hd hx.1), if_neg (fun hx => hd hx.1),
    if_neg (by simp [hm]), if_neg (by rw [hh]; decide), if_pos hp, hj]

theorem processLine_listItem {line : List Char} (st : ParseState) (i : Nat)
    (hm : st.inMetadata = false)
    (hne : trimChars line ≠ [])
    (hd : trimChars line ≠ "---".toList)
    (hh : "#".toList.isPrefixOf (trimChars line) = false)
    (hi : "[image:".toList.isPrefixOf (trimChars line) = false)
    (hl : "-".toList.isPrefixOf (trimChars line) = true) :
    processLine st i line =
      { st with
          currentList :=
            some (st.currentList.getD [] ++ [trimChars ((trimChars line).drop 1)]) } := by
  simp only [processLine]
  rw [if_neg hne, if_neg (fun hx => hd hx.1), if_neg (fun hx => hd hx.1),
    if_neg (by simp [hm]), if_neg (by rw [hh]; decide), if_neg (by rw [hi]; decide),
    if_pos hl]

theorem processLine_text {line : List Char} (st : ParseState) (i : Nat)
    (hm : st.inMetadata = false)
    (hne : trimChars line ≠ [])
    (hd : trimChars line ≠ "---".toList)
    (hh : "#".toList.isPrefixOf (trimChars line) = false)
    (hi : "[image:".toList.isPrefixOf (trimChars line) = false)
    (hl : "-".toList.isPrefixOf (trimChars line) = false) :
    processLine st i line =
      { flushList st with sections :=
          (flushList st).sections ++ [.text (trimChars line)] } := by
  simp only [processLine]
  rw [if_neg hne, if_neg (fun hx => hd hx.1), if_neg (fun hx => hd hx.1),
    if_neg (by simp [hm]), if_neg (by rw [hh]; decide), if_neg (by rw [hi]; decide),
    if_neg (by rw [hl]; decide)]

theorem processLine_item {it : List Char} (st : ParseState) (i : Nat)
    (hm : st.inMetadata = false) (hit : trimChars it = it) :
    processLine st i (itemLine it) =
      { st with currentList := some (st.currentList.getD [] ++ [it]) } := by
  by_cases hie : it = []
  · subst hie
    have h2 : trimChars ((trimChars (itemLine [])).drop 1) = ([] : List Char) := by
      decide
    rw [processLine_listItem st i hm (by decide) (by decide) (by decide)
      (by decide) (by decide), h2]
  · have hrt : rightTrim it = it := trim_fixed_right hit
    have htr : trimChars (itemLine it) = itemLine it := by
      unfold trimChars itemLine
      rw [leftTrim_cons_of_not_ws _ (by decide)]
      exact rightTrim_append_right ['-', ' '] hrt hie
    have hne : trimChars (itemLine it) ≠ [] := by
      rw [htr]; simp [itemLine]
    have hd : trimChars (itemLine it) ≠ "---".toList := by
      rw [htr]
      intro he
      rw [show "---".toList = '-' :: '-' :: ['-'] from rfl] at he
      unfold itemLine at he
      injection he with h1 h2
      injection h2 with h3 _
      exact (by decide : ¬ (' ' = '-')) h3
    have hh : "#".toList.isPrefixOf (trimChars (itemLine it)) = false := by
      rw [htr]; exact isPrefixOf_cons_ne _ _ (by decide)
    have hig : "[image:".toList.isPrefixOf (trimChars (itemLine it)) = false := by
      rw [htr]; exact isPrefixOf_cons_ne _ _ (by decide)
    have hl : "-".toList.isPrefixOf (trimChars (itemLine it)) = true := by
      rw [htr]; simp [itemLine, List.isPrefixOf_cons₂]
    have hdrop : trimChars ((itemLine it).drop 1) = it := by
      show trimChars (' ' :: it) = it
      unfold trimChars
      have h3 : leftTrim (' ' :: it) = leftTrim it := by
        unfold leftTrim
        rw [List.dropWhile_cons, if_pos (by decide)]
      rw [h3, show leftTrim it = it from trim_fixed_left hit]
      exact hrt
    rw [processLine_listItem st i hm hne hd hh hig hl, htr, hdrop]

theorem processLine_para {p : List Char} (st : ParseState) (i : Nat)
    (hm : st.inMetadata = false) (hp : goodPara p) :
    processLine st i p =
      { flushList st with sections := (flushList st).sections ++ [.text p] } := by
  obtain ⟨htr, hne, -, hh, hd, hb⟩ := hp
  obtain ⟨c, t, rfl⟩ : ∃ c t, p = c :: t := by
    cases p with
    | nil => exact absurd rfl hne
    | cons c t => exact ⟨c, t, rfl⟩
  have hcH : ¬ ('#' = c) := fun e => hh (by simp [← e])
  have hcD : ¬ ('-' = c) := fun e => hd (by simp [← e])
  have hcB : ¬ ('[' = c) := fun e => hb (by simp [← e])
  rw [processLine_text st i hm (by rw [htr]; simp)
    (by rw [htr]; exact cons_ne_dashes (fun e => hcD e.symm))
    (by rw [htr]; exact isPrefixOf_cons_ne _ _ hcH)
    (by rw [htr]; exact isPrefixOf_cons_ne _ _ hcB)
    (by rw [htr]; exact isPrefixOf_cons_ne _ _ hcD), htr]

/-! ### Loop lemmas -/

theorem parseLoop_append : ∀ (a b : List (List Char)) (st : ParseState) (i : Nat),
    parseLoop st i (a ++ b) = parseLoop (parseLoop st i a) (i + a.length) b := by
  intro a
  induction a with
  | nil => intro b st i; simp [parseLoop]
  | cons l rest ih =>
    intro b st i
    simp only [List.cons_append, parseLoop, List.append_eq]
    rw [ih]
    have hlen : i + (l :: rest).length = i + 1 + rest.length := by
      simp only [List.length_cons]; omega
    rw [hlen]

/-- Scanning a run of `- item` lines accumulates the items, in order, onto
the in-progress list; nothing else of the state changes. -/
theorem parseLoop_items : ∀ (items : List (List Char)) (st : ParseState) (i : Nat),
    st.inMetadata = false → items ≠ [] → (∀ x ∈ items, trimChars x = x) →
    parseLoop st i (items.map itemLine) =
      { st with currentList := some (st.currentList.getD [] ++ items) } := by
  intro items
  induction items with
  | nil => intro st i _ hne _; exact absurd rfl hne
  | cons it rest ih =>
    intro st i hm _ hall
    simp only [List.map_cons, parseLoop]
    rw [processLine_item st i hm (hall it (by simp))]
    by_cases hre : rest = []
    · subst hre
      simp only [List.map_nil, parseLoop]
    · rw [ih _ _ (by simp [hm]) hre (fun x hx => hall x (by simp [hx]))]
      simp

/-- A non-empty literal followed by anything is not the empty list. -/
theorem append_lit_ne_nil {c : Char} {p t : List Char} : (c :: p) ++ t ≠ [] := by
  simp

/-- Inside an open metadata block, lines never trimming to `---` change at
most the title and description: no section is emitted and the metadata
flag stays set. -/
theorem parseLoop_metadata : ∀ (ls : List (List Char)) (st : ParseState) (i : Nat),
    st.inMetadata = true → st.currentList = none →
    (∀ l ∈ ls, trimChars l ≠ "---".toList) →
    (parseLoop st i ls).sections = st.sections ∧
    (parseLoop st i ls).currentList = none := by
  intro ls
  induction ls with
  | nil => intro st i _ hcl _; exact ⟨rfl, hcl⟩
  | cons l rest ih =>
    intro st i hm hcl hall
    simp only [parseLoop]
    by_cases hb : trimChars l = []
    · rw [processLine_blank st i hb]
      have hfl : flushList st = st := by unfold flushList; rw [hcl]
      rw [hfl]
      exact ih st (i + 1) hm hcl (fun x hx => hall x (by simp [hx]))
    · rw [processLine_inMeta st i hm hb (hall l (by simp))]
      split
      · have h2 := ih { st with title := some (trimChars ((trimChars l).drop 6)) }
          (i + 1) (by simp [hm]) (by simp [hcl])
          (fun x hx => hall x (by simp [hx]))
        simpa using h2
      · split
        · have h2 := ih
            { st with description := some (trimChars ((trimChars l).drop 12)) }
            (i + 1) (by simp [hm]) (by simp [hcl])
            (fun x hx => hall x (by simp [hx]))
          simpa using h2
        · exact ih st (i + 1) hm hcl (fun x hx => hall x (by simp [hx]))

/-! ### The non-empty-lists invariant of the scan (for C3) -/

theorem nonempty_push {secs : List PmapSection} {s : PmapSection}
    (h1 : ∀ its, PmapSection.list its ∈ secs → its ≠ [])
    (hs : ∀ its, s = PmapSection.list its → its ≠ []) :
    ∀ its, PmapSection.list its ∈ secs ++ [s] → its ≠ [] := by
  intro its hmem
  rcases List.mem_append.mp hmem with hin | hsin
  · exact h1 its hin
  · exact hs its (List.mem_singleton.mp hsin).symm

theorem flushList_nonempty {st : ParseState}
    (h1 : ∀ its, PmapSection.list its ∈ st.sections → its ≠ [])
    (h2 : ∀ l, st.currentList = some l → l ≠ []) :
    (∀ its, PmapSection.list its ∈ (flushList st).sections → its ≠ []) ∧
    (∀ l, (flushList st).currentList = some l → l ≠ []) := by
  unfold flushList
  cases hc : st.currentList with
  | none => exact ⟨h1, h2⟩
  | some items =>
    constructor
    · exact nonempty_push h1
        (fun its he => by injection he with he2; exact he2 ▸ h2 items hc)
    · intro l hl
      exact absurd hl (by simp)

theorem processLine_nonempty {st : ParseState} (i : Nat) (line : List Char)
    (h1 : ∀ its, PmapSection.list its ∈ st.sections → its ≠ [])
    (h2 : ∀ l, st.currentList = some l → l ≠ []) :
    (∀ its, PmapSection.list its ∈ (processLine st i line).sections → its ≠ []) ∧
    (∀ l, (processLine st i line).currentList = some l → l ≠ []) := by
  have hf := flushList_nonempty h1 h2
  simp only [processLine]
  split
  · exact hf
  · split
    · exact ⟨h1, h2⟩
    · split
      · exact ⟨h1, h2⟩
      · split
        · split
          · exact ⟨h1, h2⟩
          · split
            · exact ⟨h1, h2⟩
            · exact ⟨h1, h2⟩
        · split
          · exact ⟨nonempty_push hf.1 (fun its h => PmapSection.noConfusion h), hf.2⟩
          · split
            · split
              · exact ⟨nonempty_push hf.1 (fun its h => PmapSection.noConfusion h), hf.2⟩
              · exact hf
            · split
              · refine ⟨h1, ?_⟩
                intro l hl
                have hl2 : some (st.currentList.getD [] ++
                    [trimChars ((trimChars line).drop 1)]) = some l := hl
                rw [← Option.some.inj hl2]
                simp
              · exact ⟨nonempty_push hf.1 (fun its h => PmapSection.noConfusion h), hf.2⟩

theorem parseLoop_nonempty : ∀ (ls : List (List Char)) (st : ParseState) (i : Nat),
    (∀ its, PmapSection.list its ∈ st.sections → its ≠ []) →
    (∀ l, st.currentList = some l → l ≠ []) →
    (∀ its, PmapSection.list its ∈ (parseLoop st i ls).sections → its ≠ []) ∧
    (∀ l, (parseLoop st i ls).currentList = some l → l ≠ []) := by
  intro ls
  induction ls with
  | nil => intro st i h1 h2; exact ⟨h1, h2⟩
  | cons l rest ih =>
    intro st i h1 h2
    simp only [parseLoop]
    have hp := processLine_nonempty i l h1 h2
    exact ih _ _ hp.1 hp.2

/-! ### The claims -/

/-- C1: for every input string, `parsePmap` terminates and returns a
`PmapData` document.  In this embedding the line-scan loop `parseLoop` is
a structurally recursive total function, so `parsePmap` is defined on all
inputs and the result always exists. -/
theorem parsePmap_total (content : List Char) : ∃ d : PmapData, parsePmap content = d :=
  ⟨parsePmap content, rfl⟩

/-- C3: every `list` section in a parsed document carries a non-empty item
sequence: a pending list is created only by a list-item line appending its
first item, and is flushed only when it exists. -/
theorem parsePmap_lists_nonempty (content : List Char) (its : List (List Char))
    (hmem : PmapSection.list its ∈ (parsePmap content).sections) : its ≠ [] := by
  have h0 := parseLoop_nonempty (splitLines content) initState 0
    (by intro _ h; simp [initState] at h) (by intro _ h; simp [initState] at h)
  have hf := flushList_nonempty h0.1 h0.2
  exact hf.1 its hmem

/-- Witness for C3 at the concrete document `- a`, whose single section is
the list with one item `a`. -/
theorem parsePmap_lists_nonempty_witness :
    PmapSection.list [['a']] ∈ (parsePmap ("- a".toList)).sections ∧
    [['a']] ≠ ([] : List (List Char)) := by
  have hm : PmapSection.list [['a']] ∈ (parsePmap ("- a".toList)).sections := by
    decide
  exact ⟨hm, parsePmap_lists_nonempty ("- a".toList) [['a']] hm⟩

/-- C4: a line whose trimmed form starts with `#` (on its own, it can
never open a metadata block) parses to exactly one heading section whose
level is the number of consecutive leading `#` characters — no upper
bound — and whose content is the remainder after the marker run,
trimmed. -/
theorem parsePmap_heading (l : List Char) (hnl : '\n' ∉ l)
    (hh : "#".toList.isPrefixOf (trimChars l) = true) :
    parsePmap l = ⟨none, none,
      [.heading
        (trimChars ((trimChars l).drop
          ((trimChars l).takeWhile (fun c => c = '#')).length))
        ((trimChars l).takeWhile (fun c => c = '#')).length]⟩ := by
  simp only [parsePmap]
  rw [splitLines_no_nl hnl]
  simp only [parseLoop]
  rw [processLine_heading initState 0 rfl hh]
  rfl

/-- Witness for C4: `## Hello` parses to one heading of level 2 with
content `Hello` (the claim's own example; `#### X` gives level 4 the same
way). -/
theorem parsePmap_heading_witness :
    parsePmap ("## Hello".toList) =
      ⟨none, none, [.heading "Hello".toList 2]⟩ := by
  have h := parsePmap_heading ("## Hello".toList) (by decide) (by decide)
  exact h.trans (by decide)

/-- C7 counterexample: the claim says a `---` line at index > 0 outside a
metadata block is inert; in fact the scan classifies it as a list item
(it starts with `-`), appending the item `--`, so `a\n---` differs from
`a` by a whole list section. -/
theorem parsePmap_dashes_cex :
    parsePmap ("a\n---".toList) ≠ parsePmap ("a".toList) ∧
    parsePmap ("a\n---".toList) =
      ⟨none, none, [.text ['a'], .list [['-', '-']]]⟩ ∧
    parsePmap ("a".toList) = ⟨none, none, [.text ['a']]⟩ := by
  decide

/-- C7 amended: a line trimming to `---` at index > 0 outside a metadata
block is not treated as a metadata delimiter; since it starts with `-` it
is classified as a list item, appending the item `--` to the in-progress
list (creating one if none exists), which is then flushed as a `list`
section by the normal rules. -/
theorem parsePmap_dashes_amended :
    (∀ (st : ParseState) (i : Nat) (l : List Char), st.inMetadata = false →
      i ≠ 0 → trimChars l = "---".toList →
      processLine st i l =
        { st with
            currentList := some (st.currentList.getD [] ++ [['-', '-']]) }) ∧
    parsePmap ("a\n---\nb".toList) =
      ⟨none, none, [.text ['a'], .list [['-', '-']], .text ['b']]⟩ := by
  constructor
  · intro st i l hm hi htr
    simp only [processLine]
    rw [htr]
    rw [if_neg (by decide), if_neg (fun hx => hi hx.2),
      if_neg (fun hx => absurd (hm ▸ hx.2) (by decide)),
      if_neg (by rw [hm]; decide), if_neg (by decide), if_neg (by decide),
      if_pos (by decide)]
    rw [show trimChars (List.drop 1 "---".toList) = ['-', '-'] from by decide]
  · decide

/-- C2: a paragraph, then a run of `- item` lines, then a blank line, then
another paragraph, parses to exactly `[text, list(all items in source
order), text]`; with an empty run, no list section appears at all.  The
run is flushed as one `list` section at the blank line that breaks it. -/
theorem parsePmap_list_run (items : List (List Char)) (p1 p2 : List Char)
    (hitems : ∀ it ∈ items, trimChars it = it ∧ '\n' ∉ it)
    (hp1 : goodPara p1) (hp2 : goodPara p2) :
    parsePmap (joinLines (p1 :: (items.map itemLine ++ [[], p2]))) =
      ⟨none, none,
        .text p1 :: ((if items = [] then [] else [.list items]) ++ [.text p2])⟩ := by
  have hnlp1 : '\n' ∉ p1 := hp1.2.2.1
  have hnlp2 : '\n' ∉ p2 := hp2.2.2.1
  have hnl : ∀ l ∈ (p1 :: (items.map itemLine ++ [[], p2])), '\n' ∉ l := by
    intro l hl
    rcases List.mem_cons.mp hl with rfl | hl2
    · exact hnlp1
    rcases List.mem_append.mp hl2 with hmm | hmm
    · obtain ⟨it, hit, rfl⟩ := List.mem_map.mp hmm
      intro hc
      simp only [itemLine, List.mem_cons] at hc
      rcases hc with hc | hc | hc
      · exact absurd hc (by decide)
      · exact absurd hc (by decide)
      · exact (hitems it hit).2 hc
    · simp only [List.mem_cons, List.mem_singleton] at hmm
      rcases hmm with rfl | rfl | h0
      · simp
      · exact hnlp2
      · exact absurd h0 (by simp)
  have eA : processLine initState 0 p1 =
      (⟨none, none, [.text p1], none, false⟩ : ParseState) :=
    processLine_para initState 0 rfl hp1
  simp only [parsePmap]
  rw [splitLines_joinLines (by simp) hnl]
  simp only [parseLoop]
  rw [eA]
  by_cases hie : items = []
  · subst hie
    have eB : processLine (⟨none, none, [.text p1], none, false⟩ : ParseState)
        1 [] = ⟨none, none, [.text p1], none, false⟩ :=
      processLine_blank _ 1 rfl
    have eC : processLine (⟨none, none, [.text p1], none, false⟩ : ParseState)
        2 p2 = ⟨none, none, [.text p1, .text p2], none, false⟩ :=
      processLine_para _ 2 rfl hp2
    simp only [List.map_nil, List.nil_append, parseLoop]
    rw [eB, eC]
    rfl
  · have eD : parseLoop (⟨none, none, [.text p1], none, false⟩ : ParseState)
        1 (items.map itemLine) = ⟨none, none, [.text p1], some items, false⟩ :=
      parseLoop_items items _ 1 rfl hie (fun x hx => (hitems x hx).1)
    have eE : parseLoop (⟨none, none, [.text p1], some items, false⟩ : ParseState)
        (1 + (items.map itemLine).length) [[], p2] =
        ⟨none, none, [.text p1, .list items, .text p2], none, false⟩ := by
      simp only [parseLoop]
      have eBl : processLine (⟨none, none, [.text p1], some items, false⟩ : ParseState)
          (1 + (items.map itemLine).length) [] =
          flushList (⟨none, none, [.text p1], some items, false⟩ : ParseState) :=
        processLine_blank _ _ rfl
      rw [eBl]
      rw [show flushList (⟨none, none, [.text p1], some items, false⟩ : ParseState) =
        ⟨none, none, [.text p1, .list items], none, false⟩ from rfl]
      rw [processLine_para _ _ rfl hp2]
      rfl
    rw [parseLoop_append, eD, eE]
    rw [if_neg hie]
    rfl

/-- Witness for C2 at a concrete one-item run: `para one`, `- item`,
blank, `para two` parses to `[text, list(1 item), text]` — the claim's own
boundary example. -/
theorem parsePmap_list_run_witness :
    parsePmap (joinLines ["para one".toList, itemLine "item".toList, [],
        "para two".toList]) =
      ⟨none, none, [.text "para one".toList, .list ["item".toList],
        .text "para two".toList]⟩ := by
  have h := parsePmap_list_run ["item".toList] "para one".toList
    "para two".toList (by decide) (by decide) (by decide)
  exact h.trans (by decide)

/-- C5: an `[image: ...]` line parses by the image regex: a match yields
exactly one `image` section with the trimmed URL group and the trimmed alt
group (or the empty string when the alt group is absent); a line starting
with `[image:` that does not match yields no section and the scan
continues without error.  Concretely: `[image: a.png | A cat]` gives url
`a.png` and alt `A cat`; `[image: a.png]` gives alt `""`; the unmatched
`[image: broken` line contributes nothing and the next line still
parses. -/
theorem parsePmap_image :
    (∀ (l u : List Char) (a : Option (List Char)), '\n' ∉ l →
      "[image:".toList.isPrefixOf (trimChars l) = true →
      jsMatchImage (trimChars l) = some (u, a) →
      parsePmap l =
        ⟨none, none, [.image (trimChars u) ((a.map trimChars).getD [])]⟩) ∧
    (∀ l : List Char, '\n' ∉ l →
      "[image:".toList.isPrefixOf (trimChars l) = true →
      jsMatchImage (trimChars l) = none →
      parsePmap l = ⟨none, none, []⟩) ∧
    parsePmap "[image: a.png | A cat]".toList =
      ⟨none, none, [.image "a.png".toList "A cat".toList]⟩ ∧
    parsePmap "[image: a.png]".toList =
      ⟨none, none, [.image "a.png".toList []]⟩ ∧
    parsePmap "[image: broken\nnext".toList =
      ⟨none, none, [.text "next".toList]⟩ := by
  refine ⟨?_, ?_, by decide, by decide, by decide⟩
  · intro l u a hnl hp hj
    simp only [parsePmap]
    rw [splitLines_no_nl hnl]
    simp only [parseLoop]
    rw [processLine_image_some initState 0 rfl hp hj]
    rfl
  · intro l hnl hp hj
    simp only [parsePmap]
    rw [splitLines_no_nl hnl]
    simp only [parseLoop]
    rw [processLine_image_none initState 0 rfl hp hj]
    rfl

/-- C6: in a metadata block opened by a first line `---`, a line starting
with the literal `title:` sets the title to the trimmed remainder, a line
starting with `description:` sets the description likewise, metadata lines
(including unrecognized ones) emit no sections, and a repeated key's last
occurrence wins. -/
theorem parsePmap_metadata (t1 d1 t2 d2 : List Char)
    (h : ∀ x ∈ [t1, d1, t2, d2], trimChars x = x ∧ '\n' ∉ x) :
    parsePmap (joinLines ["---".toList, "title:".toList ++ t1,
        "description:".toList ++ d1, "stray meta".toList,
        "title:".toList ++ t2, "description:".toList ++ d2, "---".toList]) =
      ⟨some t2, some d2, []⟩ := by
  obtain ⟨ht1, hn1⟩ := h t1 (by simp)
  obtain ⟨hd1, hn1d⟩ := h d1 (by simp)
  obtain ⟨ht2, hn2⟩ := h t2 (by simp)
  obtain ⟨hd2, hn2d⟩ := h d2 (by simp)
  have hnlapp : ∀ (a t : List Char), '\n' ∉ a → '\n' ∉ t → '\n' ∉ a ++ t := by
    intro a t h1 h2 hc
    rcases List.mem_append.mp hc with hc | hc
    · exact h1 hc
    · exact h2 hc
  have htr1 : trimChars ("title:".toList ++ t1) = "title:".toList ++ t1 :=
    trimChars_append (by decide) (by decide) ht1
  have htr2 : trimChars ("title:".toList ++ t2) = "title:".toList ++ t2 :=
    trimChars_append (by decide) (by decide) ht2
  have hdr1 : trimChars ("description:".toList ++ d1) =
      "description:".toList ++ d1 :=
    trimChars_append (by decide) (by decide) hd1
  have hdr2 : trimChars ("description:".toList ++ d2) =
      "description:".toList ++ d2 :=
    trimChars_append (by decide) (by decide) hd2
  have hpfT1 : "title:".toList.isPrefixOf ("title:".toList ++ t1) = true := by
    rw [List.isPrefixOf_iff_prefix]; exact List.prefix_append _ _
  have hpfT2 : "title:".toList.isPrefixOf ("title:".toList ++ t2) = true := by
    rw [List.isPrefixOf_iff_prefix]; exact List.prefix_append _ _
  have hpfD1 : "description:".toList.isPrefixOf
      ("description:".toList ++ d1) = true := by
    rw [List.isPrefixOf_iff_prefix]; exact List.prefix_append _ _
  have hpfD2 : "description:".toList.isPrefixOf
      ("description:".toList ++ d2) = true := by
    rw [List.isPrefixOf_iff_prefix]; exact List.prefix_append _ _
  have hnTD1 : "title:".toList.isPrefixOf ("description:".toList ++ d1) = false :=
    isPrefixOf_cons_ne _ _ (by decide)
  have hnTD2 : "title:".toList.isPrefixOf ("description:".toList ++ d2) = false :=
    isPrefixOf_cons_ne _ _ (by decide)
  have hnl : ∀ x ∈ ["---".toList, "title:".toList ++ t1,
      "description:".toList ++ d1, "stray meta".toList,
      "title:".toList ++ t2, "description:".toList ++ d2, "---".toList],
      '\n' ∉ x := by
    intro x hx
    simp only [List.mem_cons] at hx
    rcases hx with rfl | rfl | rfl | rfl | rfl | rfl | rfl | hx
    · decide
    · exact hnlapp _ _ (by decide) hn1
    · exact hnlapp _ _ (by decide) hn1d
    · decide
    · exact hnlapp _ _ (by decide) hn2
    · exact hnlapp _ _ (by decide) hn2d
    · decide
    · exact absurd hx (by simp)
  have e1 : processLine initState 0 "---".toList =
      (⟨none, none, [], none, true⟩ : ParseState) :=
    processLine_open initState (by decide)
  have e2 : processLine (⟨none, none, [], none, true⟩ : ParseState) 1
      ("title:".toList ++ t1) = ⟨some t1, none, [], none, true⟩ := by
    rw [processLine_inMeta _ 1 rfl (by rw [htr1]; exact append_lit_ne_nil)
      (by rw [htr1]; exact cons_ne_dashes (by decide))]
    rw [htr1, if_pos hpfT1,
      show ("title:".toList ++ t1).drop 6 = t1 from rfl, ht1]
  have e3 : processLine (⟨some t1, none, [], none, true⟩ : ParseState) 2
      ("description:".toList ++ d1) = ⟨some t1, some d1, [], none, true⟩ := by
    rw [processLine_inMeta _ 2 rfl (by rw [hdr1]; exact append_lit_ne_nil)
      (by rw [hdr1]; exact cons_ne_dashes (by decide))]
    rw [hdr1, if_neg (by rw [hnTD1]; decide), if_pos hpfD1,
      show ("description:".toList ++ d1).drop 12 = d1 from rfl, hd1]
  have e4 : processLine (⟨some t1, some d1, [], none, true⟩ : ParseState) 3
      "stray meta".toList = ⟨some t1, some d1, [], none, true⟩ := by
    rw [processLine_inMeta _ 3 rfl (by decide) (by decide)]
    rw [if_neg (by decide), if_neg (by decide)]
  have e5 : processLine (⟨some t1, some d1, [], none, true⟩ : ParseState) 4
      ("title:".toList ++ t2) = ⟨some t2, some d1, [], none, true⟩ := by
    rw [processLine_inMeta _ 4 rfl (by rw [htr2]; exact append_lit_ne_nil)
      (by rw [htr2]; exact cons_ne_dashes (by decide))]
    rw [htr2, if_pos hpfT2,
      show ("title:".toList ++ t2).drop 6 = t2 from rfl, ht2]
  have e6 : processLine (⟨some t2, some d1, [], none, true⟩ : ParseState) 5
      ("description:".toList ++ d2) = ⟨some t2, some d2, [], none, true⟩ := by
    rw [processLine_inMeta _ 5 rfl (by rw [hdr2]; exact append_lit_ne_nil)
      (by rw [hdr2]; exact cons_ne_dashes (by decide))]
    rw [hdr2, if_neg (by rw [hnTD2]; decide), if_pos hpfD2,
      show ("description:".toList ++ d2).drop 12 = d2 from rfl, hd2]
  have e7 : processLine (⟨some t2, some d2, [], none, true⟩ : ParseState) 6
      "---".toList = ⟨some t2, some d2, [], none, false⟩ :=
    processLine_close _ 6 (by decide) (by decide) rfl
  simp only [parsePmap]
  rw [splitLines_joinLines (by simp) hnl]
  simp only [parseLoop]
  rw [e1, e2, e3, e4, e5, e6, e7]
  rfl

/-- Witness for C6: with `title:` and `description:` each given twice and
one stray metadata line, the parse returns the later values and no
sections. -/
theorem parsePmap_metadata_witness :
    parsePmap (joinLines ["---".toList, "title:T1".toList,
        "description:D1".toList, "stray meta".toList, "title:T2".toList,
        "description:D2".toList, "---".toList]) =
      ⟨some "T2".toList, some "D2".toList, []⟩ := by
  have h := parsePmap_metadata "T1".toList "D1".toList "T2".toList
    "D2".toList (by decide)
  exact h.trans (by decide)

/-- C8: a document whose first line trims to `---` with no later line
trimming to `---` leaves metadata mode open to end-of-input: every
remaining line is consumed as metadata and the resulting section list is
empty. -/
theorem parsePmap_unclosed_metadata (l0 : List Char) (ls : List (List Char))
    (h0 : trimChars l0 = "---".toList) (h0n : '\n' ∉ l0)
    (hls : ∀ l ∈ ls, '\n' ∉ l ∧ trimChars l ≠ "---".toList) :
    (parsePmap (joinLines (l0 :: ls))).sections = [] := by
  have hnl : ∀ x ∈ l0 :: ls, '\n' ∉ x := by
    intro x hx
    rcases List.mem_cons.mp hx with rfl | hx2
    · exact h0n
    · exact (hls x hx2).1
  have e1 : processLine initState 0 l0 =
      (⟨none, none, [], none, true⟩ : ParseState) :=
    processLine_open initState h0
  simp only [parsePmap]
  rw [splitLines_joinLines (by simp) hnl]
  simp only [parseLoop]
  rw [e1]
  have h2 := parseLoop_metadata ls (⟨none, none, [], none, true⟩ : ParseState)
    1 rfl rfl (fun x hx => (hls x hx).2)
  have h3 : flushList (parseLoop (⟨none, none, [], none, true⟩ : ParseState)
      1 ls) = parseLoop (⟨none, none, [], none, true⟩ : ParseState) 1 ls := by
    unfold flushList
    rw [h2.2]
  rw [h3, h2.1]

/-- Witness for C8: `---` followed by a metadata line and an ordinary line
but never closed parses to an empty section list. -/
theorem parsePmap_unclosed_metadata_witness :
    (parsePmap (joinLines ["---".toList, "title: X".toList,
        "hello".toList])).sections = [] :=
  parsePmap_unclosed_metadata "---".toList
    ["title: X".toList, "hello".toList] (by decide) (by decide) (by decide)

theorem replaceBold_id : ∀ {l : List Char}, boldFree l = true →
    replaceBold l = l := by
  intro l
  induction l with
  | nil => intro _; rw [replaceBold]
  | cons c rest ih =>
    intro hf
    rw [boldFree] at hf
    simp only [Bool.and_eq_true, Option.isNone_iff_eq_none] at hf
    rw [replaceBold]
    split
    · rename_i g r2 heq
      rw [hf.1] at heq
      exact Option.noConfusion heq
    · rw [ih hf.2]

theorem replaceLinks_id : ∀ {l : List Char}, linkFree l = true →
    replaceLinks l = l := by
  intro l
  induction l with
  | nil => intro _; rw [replaceLinks]
  | cons c rest ih =>
    intro hf
    rw [linkFree] at hf
    simp only [Bool.and_eq_true, Option.isNone_iff_eq_none] at hf
    rw [replaceLinks]
    split
    · rename_i g1 g2 r3 heq
      rw [hf.1] at heq
      exact Option.noConfusion heq
    · rw [ih hf.2]

/-- Unfolding of one successful link replacement step. -/
theorem replaceLinks_cons_some {c : Char} {rest g1 g2 r3 : List Char}
    (h : linkTryAt (c :: rest) = some (g1, g2, r3)) :
    replaceLinks (c :: rest) =
      "<a href=\"".toList ++ g2 ++ "\" target=\"_blank\">".toList ++ g1 ++
        "</a>".toList ++ replaceLinks r3 := by
  rw [replaceLinks]
  split
  · rename_i g1b g2b r3b heq
    rw [heq] at h
    simp only [Option.some.injEq, Prod.mk.injEq] at h
    obtain ⟨rfl, rfl, rfl⟩ := h
    simp [List.append_assoc]
  · rename_i heq
    rw [heq] at h
    exact Option.noConfusion h

/-- C9: on a string in which the bold pattern matches at no position and
the link pattern matches at no position, `processInlineMarkup` is the
identity (and hence idempotent there). -/
theorem processInlineMarkup_id (l : List Char) (hb : boldFree l = true)
    (hl : linkFree l = true) : processInlineMarkup l = l := by
  unfold processInlineMarkup
  rw [replaceBold_id hb, replaceLinks_id hl]

/-- Witness for C9: a string with a lone `*` pair and brackets separated
from parentheses contains neither pattern and is returned unchanged. -/
theorem processInlineMarkup_id_witness :
    processInlineMarkup "hello *world* [x] (y)".toList =
      "hello *world* [x] (y)".toList :=
  processInlineMarkup_id "hello *world* [x] (y)".toList (by decide) (by decide)

/-- C10: the link regex `\[([^\]]+)\]\(([^\)]+)\)` requires a non-empty
label and a non-empty URL (both groups use `+`), so `[](url)` and
`[text]()` are left unchanged by `processInlineMarkup`, while a span with
both parts non-empty is rewritten. -/
theorem processInlineMarkup_link_nonempty :
    (∀ (l g1 g2 r : List Char), linkTryAt l = some (g1, g2, r) →
      g1 ≠ [] ∧ g2 ≠ []) ∧
    processInlineMarkup "[](url)".toList = "[](url)".toList ∧
    processInlineMarkup "[text]()".toList = "[text]()".toList ∧
    processInlineMarkup "[a](b)".toList =
      "<a href=\"b\" target=\"_blank\">a</a>".toList := by
  refine ⟨?_, ?_, ?_, ?_⟩
  case refine_2 =>
    unfold processInlineMarkup
    rw [replaceBold_id (by decide), replaceLinks_id (by decide)]
  case refine_3 =>
    unfold processInlineMarkup
    rw [replaceBold_id (by decide), replaceLinks_id (by decide)]
  case refine_4 =>
    unfold processInlineMarkup
    rw [replaceBold_id (by decide)]
    rw [show "[a](b)".toList = '[' :: "a](b)".toList from rfl]
    have hL : linkTryAt ('[' :: "a](b)".toList) =
        some ("a".toList, "b".toList, ([] : List Char)) := by decide
    rw [replaceLinks_cons_some hL,
      show replaceLinks [] = [] from by rw [replaceLinks]]
    decide
  intro l g1 g2 r h
  rw [linkTryAt] at h
  split at h
  case isTrue hpre =>
    obtain ⟨j, _, hfj⟩ := firstSome_eq_some h
    split at hfj
    · exact absurd hfj (by simp)
    · rename_i hj
      split at hfj
      case isTrue hpre2 =>
        obtain ⟨k, _, hgk⟩ := firstSome_eq_some hfj
        split at hgk
        · exact absurd hgk (by simp)
        · rename_i hk
          split at hgk
          case isTrue hpre3 =>
            simp only [Option.some.injEq, Prod.mk.injEq] at hgk
            obtain ⟨hg1, hg2, -⟩ := hgk
            constructor
            · rw [← hg1]
              intro hnil
              rcases List.take_eq_nil_iff.mp hnil with h0 | h0
              · exact hj h0
              · rw [h0] at hpre2
                rw [List.isPrefixOf_iff_prefix] at hpre2
                have hlen := hpre2.length_le
                simp at hlen
            · rw [← hg2]
              intro hnil
              rcases List.take_eq_nil_iff.mp hnil with h0 | h0
              · exact hk h0
              · rw [h0] at hpre3
                rw [List.isPrefixOf_iff_prefix] at hpre3
                have hlen := hpre3.length_le
                simp at hlen
          case isFalse => exact absurd hgk (by simp)
      case isFalse => exact absurd hfj (by simp)
  case isFalse => exact absurd h (by simp)

end Pmap
